import Mathlib

/-!
Shallow embedding of the galaxy-catalogue completion module of
DarkSirensStat (`DarkSirensStat/galCat.py` together with the `parmap`
utility of `Xi0Stat/globals.py`) and proofs about it.

Modelling conventions:
* pandas dataframes become `List Galaxy` (plus an explicit pixel-column
  cache for the claims about caching, see `PDataFrame` and `GalCatSt`);
* numpy floating-point arithmetic is modelled over `ℝ`, wrapped in `NpF`
  where a computation can produce a non-real (NaN) value;
* `hp.ang2pix` is an opaque parameter `a2p : Nat → ℝ → ℝ → Nat`;
* the Keelin-distribution routines (`bounded_keelin_3_discrete_probabilities`
  and `convolve_bounded_keelin_3`, in `keelin.py`, which is not part of the
  two source files) are modelled from the spec as per-row parameter
  functions, as the spec describes them: a per-galaxy probability-mass row
  over the redshift grid, and five corrected quantile values per row;
* the exception raised by `np.vstack`/`np.hstack` on an empty list of
  arrays, and the failed `assert`, are modelled by an `Option` result.
-/

/-- One row of a galaxy-catalogue table: angular position, the five
redshift quantiles `z_lowerbound ≤ z_lower ≤ z ≤ z_upper ≤ z_upperbound`,
and the galaxy weight `w`. -/
structure Galaxy where
  theta : ℝ
  phi : ℝ
  z_lowerbound : ℝ
  z_lower : ℝ
  z : ℝ
  z_upper : ℝ
  z_upperbound : ℝ
  w : ℝ

/-- Result of a numpy floating-point computation: either a real value or a
non-real value `nan`.  The computations verified here produce non-real
values only of the NaN kind (`0/0` and `np.mean` of an empty array); numpy's
`±inf` (from `x/0` with `x ≠ 0`) is collapsed into `nan` as well, a case
that never arises in any of the verified scenarios. -/
inductive NpF where
  | nan : NpF
  | val : ℝ → NpF

/-- numpy addition; a NaN operand makes the result NaN. -/
def NpF.add : NpF → NpF → NpF
  | val x, val y => val (x + y)
  | _, _ => nan

/-- numpy multiplication; a NaN operand makes the result NaN. -/
def NpF.mul : NpF → NpF → NpF
  | val x, val y => val (x * y)
  | _, _ => nan

/-- numpy division; a NaN operand or a zero divisor makes the result
non-real. -/
noncomputable def NpF.div : NpF → NpF → NpF
  | val x, val y => if y = 0 then nan else val (x / y)
  | _, _ => nan

/-- `np.mean` of a list of real values: NaN on an empty list, otherwise the
arithmetic mean. -/
noncomputable def npMean : List ℝ → NpF
  | [] => NpF.nan
  | l => NpF.val (l.sum / (l.length : ℝ))

/-- Pointwise combination of three equal-length lists (numpy elementwise
broadcasting over three aligned arrays). -/
def zip3With (f : α → β → γ → δ) : List α → List β → List γ → List δ
  | a :: as, b :: bs, c :: cs => f a b c :: zip3With f as bs cs
  | _, _, _ => []

/-- Keep the entries of `l` whose corresponding entry of `keep` is `true`
(boolean-mask indexing `l[mask]`). -/
def keepWhere (l : List α) (keep : List Bool) : List α :=
  ((l.zip keep).filter fun p => p.2).map Prod.fst

/-- The part of one `GalCat`'s state that the aggregation methods read: the
current selection (`get_data()`), the wrapped completeness model's `get`
function, and its `_comovingDensityGoal` scalar.  Pixel-column caching,
which only determines when `hp.ang2pix` is re-evaluated and never changes
the pixel values, is modelled separately by `GalCatSt` below. -/
structure GalCatView where
  sel : List Galaxy
  complGet : ℝ → ℝ → ℝ → ℝ
  goal : ℝ

/-- `GalCat.completeness`: the wrapped completeness model's value plus the
additive floor `1e-9`. -/
noncomputable def GalCat.completeness (c : GalCatView) (theta phi z : ℝ) : ℝ :=
  c.complGet theta phi z + 1e-9

/-- State of `GalCompleted`: the ordered adapters, their scalar weights and
the two completion-mode flags. -/
structure GalCompleted where
  galcats : List GalCatView
  catweights : List ℝ
  additive : Bool
  multiplicative : Bool

/-- `GalCompleted.__init__`: both flags start `False`; `'add'` sets
`_additive`, otherwise `'mult'` sets `_multiplicative`, and any other string
leaves both flags off. -/
def GalCompleted.init (completionType : String) : GalCompleted :=
  if completionType = "add" then ⟨[], [], true, false⟩
  else if completionType = "mult" then ⟨[], [], false, true⟩
  else ⟨[], [], false, false⟩

/-- `GalCompleted.add_cat`: append a catalogue and its weight. -/
def GalCompleted.add_cat (g : GalCompleted) (cat : GalCatView) (weight : ℝ) :
    GalCompleted :=
  { g with galcats := g.galcats ++ [cat], catweights := g.catweights ++ [weight] }

/-- `GalCompleted.confidence`: `1` in multiplicative mode, the identity in
additive mode, and otherwise `exp(0.05 * (1 - 1/clip(compl, 2e-3, 1)))`,
where `np.clip(x, a_min, a_max) = min (max x a_min) a_max`. -/
noncomputable def GalCompleted.confidence (g : GalCompleted) (compl : ℝ) : ℝ :=
  if g.multiplicative then 1
  else if g.additive then compl
  else Real.exp (0.05 * (1 - 1 / min (max compl 2e-3) 1))

/-- Per-catalogue weight used by `get_inhom`/`get_inhom_contained`/`eval_hom`
whenever completeness is evaluated: `catweight = w * np.mean(completeness)`
(NaN when the evaluated completeness array is empty). -/
noncomputable def inhomCatweight (w : ℝ) (compl : List ℝ) : NpF :=
  (NpF.val w).mul (npMean compl)

/-- Completeness of catalogue `c` evaluated with `oneZPerAngle=True` at each
galaxy of its selection (one redshift per angular point). -/
noncomputable def selCompleteness (c : GalCatView) : List ℝ :=
  c.sel.map fun gal => GalCat.completeness c gal.theta gal.phi gal.z

/-- Loop body chain of `GalCompleted.get_inhom`: iterate over the
`(catalogue, weight)` pairs accumulating per-catalogue pixel arrays,
redshift arrays, (not yet globally normalized) weight arrays, and the
running `catweightTotal`.  In the single-catalogue additive shortcut the
completeness is not evaluated and `catweightTotal` is *assigned* `w`. -/
noncomputable def inhomAux (g : GalCompleted) (a2p : Nat → ℝ → ℝ → Nat) (nside : Nat) :
    List (GalCatView × ℝ) → List (List Nat) → List (List ℝ) → List (List NpF) → NpF →
      List (List Nat) × List (List ℝ) × List (List NpF) × NpF
  | [], allpixels, allredshifts, allweights, catweightTotal =>
      (allpixels, allredshifts, allweights, catweightTotal)
  | (c, w) :: rest, allpixels, allredshifts, allweights, catweightTotal =>
      let pix := c.sel.map fun gal => a2p nside gal.theta gal.phi
      let reds := c.sel.map Galaxy.z
      if g.additive = true ∧ g.galcats.length = 1 then
        let ws := c.sel.map fun gal => (NpF.val gal.w).div (NpF.val c.goal)
        inhomAux g a2p nside rest (allpixels ++ [pix]) (allredshifts ++ [reds])
          (allweights ++ [ws]) (NpF.val w)
      else
        let compl := selCompleteness c
        let catweight := inhomCatweight w compl
        let ws := ((c.sel.map Galaxy.w).zip compl).map fun xc =>
          ((((NpF.val xc.1).div (NpF.val xc.2)).mul
            (NpF.val (g.confidence xc.2))).mul catweight).div (NpF.val c.goal)
        inhomAux g a2p nside rest (allpixels ++ [pix]) (allredshifts ++ [reds])
          (allweights ++ [ws]) (catweightTotal.add catweight)

/-- `GalCompleted.get_inhom`: pixels, point redshifts and normalized weights
of all selected galaxies.  With zero catalogues `np.hstack` is applied to an
empty list of arrays and raises, modelled by `none`. -/
noncomputable def GalCompleted.get_inhom (g : GalCompleted) (a2p : Nat → ℝ → ℝ → Nat)
    (nside : Nat) : Option (List Nat × List ℝ × List NpF) :=
  let r := inhomAux g a2p nside (g.galcats.zip g.catweights) [] [] [] (NpF.val 0)
  match g.galcats with
  | [] => none
  | _ :: _ => some (r.1.flatten, r.2.1.flatten, r.2.2.1.flatten.map fun x => x.div r.2.2.2)

/-- Completeness of catalogue `c` evaluated for each selected galaxy across
the whole redshift grid (the broadcast form used by `get_inhom_contained`). -/
noncomputable def selGridCompleteness (c : GalCatView) (zGrid : List ℝ) : List (List ℝ) :=
  c.sel.map fun gal => zGrid.map fun zz => GalCat.completeness c gal.theta gal.phi zz

/-- Loop body chain of `GalCompleted.get_inhom_contained`; `kp zGrid gal` is
the galaxy's Keelin probability-mass row over the grid (modelled from the
spec, see the module docstring). -/
noncomputable def inhomContainedAux (g : GalCompleted) (kp : List ℝ → Galaxy → List ℝ)
    (a2p : Nat → ℝ → ℝ → Nat) (zGrid : List ℝ) (nside : Nat) :
    List (GalCatView × ℝ) → List (List Nat) → List (List (List NpF)) → NpF →
      List (List Nat) × List (List (List NpF)) × NpF
  | [], allpixels, allweights, catweightTotal => (allpixels, allweights, catweightTotal)
  | (c, w) :: rest, allpixels, allweights, catweightTotal =>
      let pix := c.sel.map fun gal => a2p nside gal.theta gal.phi
      let w0 : List (List ℝ) := c.sel.map fun gal => (kp zGrid gal).map fun x => x * gal.w
      if g.additive = true ∧ g.galcats.length = 1 then
        let ws := w0.map fun row => row.map fun x => (NpF.val x).div (NpF.val c.goal)
        inhomContainedAux g kp a2p zGrid nside rest (allpixels ++ [pix])
          (allweights ++ [ws]) (NpF.val w)
      else
        let complM := selGridCompleteness c zGrid
        let catweight := inhomCatweight w complM.flatten
        let ws := (w0.zip complM).map fun rc =>
          (rc.1.zip rc.2).map fun xc =>
            ((((NpF.val xc.1).div (NpF.val xc.2)).mul
              (NpF.val (g.confidence xc.2))).mul catweight).div (NpF.val c.goal)
        inhomContainedAux g kp a2p zGrid nside rest (allpixels ++ [pix])
          (allweights ++ [ws]) (catweightTotal.add catweight)

/-- `GalCompleted.get_inhom_contained`: pixels and the per-galaxy weight
matrix over the redshift grid.  With zero catalogues `np.vstack` is applied
to an empty list of arrays and raises, modelled by `none`. -/
noncomputable def GalCompleted.get_inhom_contained (g : GalCompleted)
    (kp : List ℝ → Galaxy → List ℝ) (a2p : Nat → ℝ → ℝ → Nat)
    (zGrid : List ℝ) (nside : Nat) : Option (List Nat × List (List NpF)) :=
  let r := inhomContainedAux g kp a2p zGrid nside (g.galcats.zip g.catweights) [] [] (NpF.val 0)
  match g.galcats with
  | [] => none
  | _ :: _ => some (r.1.flatten, r.2.1.flatten.map fun row => row.map fun x => x.div r.2.2)

/-- Completeness of catalogue `c` at paired query points (`oneZPerAngle=True`),
as evaluated by `eval_hom`. -/
noncomputable def complPoints (c : GalCatView) (theta phi z : List ℝ) : List ℝ :=
  zip3With (fun t p zz => GalCat.completeness c t p zz) theta phi z

/-- One catalogue's (unnormalized) contribution inside `eval_hom`:
`(1 - confidence(completeness)) * catweight` at each query point, with
`catweight = w * np.mean(completeness)`. -/
noncomputable def homContribution (g : GalCompleted) (c : GalCatView) (w : ℝ)
    (theta phi z : List ℝ) : List NpF :=
  (complPoints c theta phi z).map fun cc =>
    (NpF.val (1 - g.confidence cc)).mul (inhomCatweight w (complPoints c theta phi z))

/-- Loop body chain of `GalCompleted.eval_hom`. -/
noncomputable def evalHomAux (g : GalCompleted) (theta phi z : List ℝ) :
    List (GalCatView × ℝ) → List NpF → NpF → List NpF × NpF
  | [], ret, catweightTotal => (ret, catweightTotal)
  | (c, w) :: rest, ret, catweightTotal =>
      let catweight := inhomCatweight w (complPoints c theta phi z)
      evalHomAux g theta phi z rest
        (List.zipWith NpF.add ret (homContribution g c w theta phi z))
        (catweightTotal.add catweight)

/-- `GalCompleted.eval_hom`: the homogeneous completion field at paired
query points; starts from `np.zeros(len(theta))` and finally divides by the
accumulated `catweightTotal`.  The failed `assert len(theta) == len(z)`
(active when `MC` holds) is modelled by `none`. -/
noncomputable def GalCompleted.eval_hom (g : GalCompleted) (theta phi z : List ℝ)
    (MC : Bool) : Option (List NpF) :=
  if MC = true ∧ theta.length ≠ z.length then none
  else
    let r := evalHomAux g theta phi z (g.galcats.zip g.catweights)
      (List.replicate theta.length (NpF.val 0)) (NpF.val 0)
    some (r.1.map fun x => x.div r.2)

/-- Five corrected quantile values for one row, as returned per row by
`convolve_bounded_keelin_3`. -/
structure Res5 where
  q0 : ℝ
  q1 : ℝ
  q2 : ℝ
  q3 : ℝ
  q4 : ℝ

/-- `convolve_batch(df, func, batchId, nBatches)`: slice the contiguous row
range `[n*batchId, stop)` with `n = len(df) // nBatches` (the last batch runs
to the end of the table) and apply the convolution to each row of the slice.
The per-row convolution `conv` is a parameter; it is modelled from the spec:
`convolve_bounded_keelin_3` produces five corrected quantile values per row,
each row independently, from the row's quantiles and the (fixed) Jacobian
interpolant. -/
def convolve_batch (conv : Galaxy → Res5) (df : List Galaxy) (nBatches batchId : Nat) :
    List Res5 :=
  let n := df.length / nBatches
  let start := n * batchId
  let stop := if batchId = nBatches - 1 then df.length else n * (batchId + 1)
  ((df.take stop).drop start).map conv

/-- `parmap(f, X)` of `globals.py`: worker processes deliver `(i, f(X[i]))`
pairs in an arbitrary order (`arrival` lists the enumeration indices in
delivery order); the main process sorts the delivered pairs by index and
keeps the values. -/
def parmap [Inhabited α] (f : α → β) (X : List α) (arrival : List Nat) : List β :=
  let delivered := arrival.map fun i => (i, f (X.getD i default))
  (List.insertionSort (fun p q => p.1 ≤ q.1) delivered).map Prod.snd

/-- The `res` array of `include_vol_prior`: `np.vstack(parmap(convolve_batch, range(nBatches)))`. -/
def batchedRes (conv : Galaxy → Res5) (df : List Galaxy) (nBatches : Nat)
    (arrival : List Nat) : List Res5 :=
  (parmap (fun b => convolve_batch conv df nBatches b) (List.range nBatches) arrival).flatten

/-- The per-row removal mask of `include_vol_prior`: corrected quantiles not
strictly increasing, or corrected lower bound negative. -/
noncomputable def volPriorMask (r : Res5) : Bool :=
  decide (r.q0 ≥ r.q1 ∨ r.q1 ≥ r.q2 ∨ r.q2 ≥ r.q3 ∨ r.q3 ≥ r.q4 ∨ r.q0 < 0)

/-- The same removal condition read off a galaxy row's (already overwritten)
quantile columns. -/
noncomputable def rowUnfeasible (gal : Galaxy) : Bool :=
  decide (gal.z_lowerbound ≥ gal.z_lower ∨ gal.z_lower ≥ gal.z ∨ gal.z ≥ gal.z_upper ∨
    gal.z_upper ≥ gal.z_upperbound ∨ gal.z_lowerbound < 0)

/-- Overwrite the five quantile columns of one row with the corrected values
(the in-place column assignments `df.z_lowerbound = res[:, 0]`, ...). -/
def setQuantiles (gal : Galaxy) (r : Res5) : Galaxy :=
  ⟨gal.theta, gal.phi, r.q0, r.q1, r.q2, r.q3, r.q4, gal.w⟩

/-- `include_vol_prior` with an explicit batch count.  Returns the pair
(state of the caller's dataframe after the call, returned filtered frame):
the five quantile columns of *every* row of the caller's frame are
overwritten with the corrected values, and the returned frame is the subset
of rows whose mask is false. -/
noncomputable def includeVolPriorWith (conv : Galaxy → Res5) (df : List Galaxy)
    (nBatches : Nat) (arrival : List Nat) : List Galaxy × List Galaxy :=
  (List.zipWith setQuantiles df (batchedRes conv df nBatches arrival),
    keepWhere (List.zipWith setQuantiles df (batchedRes conv df nBatches arrival))
      (((batchedRes conv df nBatches arrival).map volPriorMask).map fun b => !b))

/-- `GalCat.include_vol_prior`: batch size 10000, at least one batch. -/
noncomputable def include_vol_prior (conv : Galaxy → Res5) (df : List Galaxy)
    (arrival : List Nat) : List Galaxy × List Galaxy :=
  includeVolPriorWith conv df (max (df.length / 10000) 1) arrival

/-- A pandas dataframe as far as the pixel-cache claims are concerned: the
rows plus the lazily added per-resolution pixel columns (`"pix" + str(nside)`,
keyed here by `nside`). -/
structure PDataFrame where
  rows : List Galaxy
  pixCols : List (Nat × List Nat)

/-- Column membership test `pixname in df`. -/
def PDataFrame.hasCol (df : PDataFrame) (nside : Nat) : Bool :=
  (df.pixCols.lookup nside).isSome

/-- Read a pixel column (defaulting to the empty column; only used where the
column is present). -/
def PDataFrame.getCol (df : PDataFrame) (nside : Nat) : List Nat :=
  (df.pixCols.lookup nside).getD []

/-- `hp.ang2pix(nside, theta, phi)` applied row-wise. -/
def computePix (a2p : Nat → ℝ → ℝ → Nat) (nside : Nat) (rows : List Galaxy) : List Nat :=
  rows.map fun gal => a2p nside gal.theta gal.phi

/-- Add a pixel column to a dataframe. -/
def PDataFrame.withCol (df : PDataFrame) (nside : Nat) (col : List Nat) : PDataFrame :=
  ⟨df.rows, (nside, col) :: df.pixCols⟩

/-- Boolean-mask row selection `df[mask]`: a *copy* carrying every column
(including all cached pixel columns) restricted to the masked rows. -/
def PDataFrame.filterMask (df : PDataFrame) (mask : List Bool) : PDataFrame :=
  ⟨keepWhere df.rows mask, df.pixCols.map fun nc => (nc.1, keepWhere nc.2 mask)⟩

/-- Mutable state of one `GalCat` for the caching claims: the full table
`self.data`, the current selection `self.selectedData`, and whether the
selection still *aliases* the full table (as it does right after `load`,
where `self.selectedData = self.data` binds the same object; any masked
selection afterwards is a copy). -/
structure GalCatSt where
  data : PDataFrame
  sel : PDataFrame
  selIsData : Bool

/-- Construction: the selection is the full table itself. -/
def GalCatSt.load (rows : List Galaxy) : GalCatSt :=
  ⟨⟨rows, []⟩, ⟨rows, []⟩, true⟩

/-- `GalCat.select_area`: ensure the pixel column exists on `self.data`
(computing it once if absent — the returned flag records whether `ang2pix`
was evaluated), then replace the selection by the masked *copy* of the full
table.  A write to `self.data` is seen by the selection only while the
selection aliases it. -/
def GalCatSt.select_area (st : GalCatSt) (a2p : Nat → ℝ → ℝ → Nat)
    (pixels : List Nat) (nside : Nat) : GalCatSt × Bool :=
  let stc :=
    if st.data.hasCol nside then (st, false)
    else
      let data1 := st.data.withCol nside (computePix a2p nside st.data.rows)
      (⟨data1, if st.selIsData then data1 else st.sel, st.selIsData⟩, true)
  let st1 := stc.1
  let mask := (st1.data.getCol nside).map fun p => pixels.contains p
  (⟨st1.data, st1.data.filterMask mask, false⟩, stc.2)

/-- `GalCat.set_z_range_for_selection`: filter the *current* selection by
`zMin ≤ z < zMax`; the result is a copy. -/
noncomputable def GalCatSt.set_z_range_for_selection (st : GalCatSt) (zMin zMax : ℝ) :
    GalCatSt :=
  let mask := st.sel.rows.map fun gal => decide (zMin ≤ gal.z ∧ gal.z < zMax)
  ⟨st.data, st.sel.filterMask mask, false⟩

/-- The pixel-index block at the top of the `get_inhom`/`get_inhom_contained`
loop: if the selection dataframe lacks the column, compute it and write it
onto the *selection* object (`d.loc[:, pixname] = ...` where
`d = c.get_data()`); the full table sees the write only when the selection
still aliases it.  Returns the new state, the pixel array, and whether
`ang2pix` was evaluated. -/
def GalCatSt.inhomPixStep (st : GalCatSt) (a2p : Nat → ℝ → ℝ → Nat) (nside : Nat) :
    GalCatSt × List Nat × Bool :=
  if st.sel.hasCol nside then (st, st.sel.getCol nside, false)
  else
    let col := computePix a2p nside st.sel.rows
    let sel1 := st.sel.withCol nside col
    (⟨if st.selIsData then sel1 else st.data, sel1, st.selIsData⟩, col, true)

/-- Closed form, following the spec's words, of the additive-mode
`get_inhom` weights after the division/confidence cancellation: each
galaxy's weight is `w_gal * catweight / goal`, then everything is divided by
the accumulated total catalogue weight; completeness enters only through the
per-catalogue `catweight = w * mean(completeness)` factors. -/
noncomputable def additiveInhomWeightsSpec (g : GalCompleted) : List NpF :=
  let pairs := g.galcats.zip g.catweights
  let total := pairs.foldl
    (fun acc cw => acc.add (inhomCatweight cw.2 (selCompleteness cw.1))) (NpF.val 0)
  (pairs.map fun cw => cw.1.sel.map fun gal =>
    ((((NpF.val gal.w).mul (inhomCatweight cw.2 (selCompleteness cw.1))).div
      (NpF.val cw.1.goal)).div total)).flatten

/-- Closed form, following the spec's words, of one catalogue's unnormalized
homogeneous contribution in additive mode: `catweight * (1 - completeness)`
at every query point. -/
noncomputable def additiveHomContributionSpec (c : GalCatView) (w : ℝ)
    (theta phi z : List ℝ) : List NpF :=
  (complPoints c theta phi z).map fun cc =>
    (NpF.val (1 - cc)).mul (inhomCatweight w (complPoints c theta phi z))

/-- Pixel arrays concatenated across catalogues, as collected by the
`get_inhom` loop. -/
def allPixels (g : GalCompleted) (a2p : Nat → ℝ → ℝ → Nat) (nside : Nat) : List Nat :=
  ((g.galcats.zip g.catweights).map fun cw =>
    cw.1.sel.map fun gal => a2p nside gal.theta gal.phi).flatten

/-- Redshift arrays concatenated across catalogues, as collected by the
`get_inhom` loop. -/
def allRedshifts (g : GalCompleted) : List ℝ :=
  ((g.galcats.zip g.catweights).map fun cw => cw.1.sel.map Galaxy.z).flatten

/-- Constant pixelization function used by the concrete scenarios. -/
def a2pC : Nat → ℝ → ℝ → Nat := fun _ _ _ => 3

/-- A concrete galaxy row. -/
noncomputable def gal1 : Galaxy := ⟨0, 0, 0, 0, 1, 2, 3, 1⟩

/-- A second concrete galaxy row. -/
noncomputable def gal2 : Galaxy := ⟨0, 0, 0, 0, 2, 3, 4, 1⟩

/-- C1 scenario, catalogue A: one galaxy, completeness-model value 1
everywhere, density goal 1. -/
noncomputable def catC1A : GalCatView := ⟨[gal1], fun _ _ _ => 1, 1⟩

/-- C1 scenario, catalogue B: *empty* current selection. -/
noncomputable def catC1B : GalCatView := ⟨[], fun _ _ _ => 1, 1⟩

/-- C1 scenario aggregator: interpolated (default) mode, weights 0.7/0.3. -/
noncomputable def aggC1 : GalCompleted := ⟨[catC1A, catC1B], [7/10, 3/10], false, false⟩

/-- Concrete Keelin discretization used by the C1 scenario: probability mass
1 in every grid cell (any fixed function works; the scenario's outcome does
not depend on it). -/
def kpC1 : List ℝ → Galaxy → List ℝ := fun zs _ => zs.map fun _ => 1

/-- C2 scenario A, first catalogue: completeness-model value `1 - 1e-9`, so
`GalCat.completeness` is exactly 1 at the (single) galaxy's position. -/
noncomputable def catC2A1 : GalCatView := ⟨[gal1], fun _ _ _ => 1 - 1e-9, 1⟩

/-- C2 scenario B, first catalogue: identical to `catC2A1` except that the
completeness at the galaxy's position is 1/2 instead of 1. -/
noncomputable def catC2B1 : GalCatView := ⟨[gal1], fun _ _ _ => 1/2 - 1e-9, 1⟩

/-- C2 scenario, second catalogue (identical in both scenarios). -/
noncomputable def catC2s : GalCatView := ⟨[gal2], fun _ _ _ => 1 - 1e-9, 1⟩

/-- C2 scenario A aggregator: additive mode, two catalogues of weight 1. -/
noncomputable def aggC2A : GalCompleted := ⟨[catC2A1, catC2s], [1, 1], true, false⟩

/-- C2 scenario B aggregator: additive mode; differs from `aggC2A` only in
the completeness value at the first galaxy's position. -/
noncomputable def aggC2B : GalCompleted := ⟨[catC2B1, catC2s], [1, 1], true, false⟩

/-- C3 scenario: a one-row table right after `load` (selection aliases the
full table). -/
noncomputable def stC3 : GalCatSt := GalCatSt.load [gal1]

/-- Concrete per-row convolution used by witnesses. -/
noncomputable def convC : Galaxy → Res5 := fun gal =>
  ⟨gal.z, gal.z + 1, gal.z + 2, gal.z + 3, gal.z + 4⟩

/-- Aggregator holding zero catalogues. -/
def aggEmpty : GalCompleted := ⟨[], [], false, false⟩

theorem NpF.div_nan (x : NpF) : x.div NpF.nan = NpF.nan := by
  cases x <;> rfl

theorem NpF.add_nan (x : NpF) : x.add NpF.nan = NpF.nan := by
  cases x <;> rfl

theorem NpF.mul_nan (x : NpF) : x.mul NpF.nan = NpF.nan := by
  cases x <;> rfl

theorem NpF.val_mul_val (x y : ℝ) : (NpF.val x).mul (NpF.val y) = NpF.val (x * y) := rfl

theorem NpF.val_add_val (x y : ℝ) : (NpF.val x).add (NpF.val y) = NpF.val (x + y) := rfl

theorem NpF.val_div_val (x y : ℝ) (h : y ≠ 0) :
    (NpF.val x).div (NpF.val y) = NpF.val (x / y) := by
  simp [NpF.div, h]

theorem confidence_default (g : GalCompleted) (h1 : g.multiplicative = false)
    (h2 : g.additive = false) (t : ℝ) :
    g.confidence t = Real.exp (0.05 * (1 - 1 / min (max t 2e-3) 1)) := by
  simp [GalCompleted.confidence, h1, h2]

/-- C8: `GalCat.completeness` adds the floor `1e-9` to the wrapped model's
value, so it is strictly positive (in particular nonzero) whenever the model
returns a non-negative value, and the aggregator's elementwise division by
it always produces a real value, never a NaN/division failure. -/
theorem completeness_floor_positive (c : GalCatView) (theta phi z : ℝ)
    (h : 0 ≤ c.complGet theta phi z) :
    0 < GalCat.completeness c theta phi z ∧ GalCat.completeness c theta phi z ≠ 0 ∧
      ∀ x : ℝ, (NpF.val x).div (NpF.val (GalCat.completeness c theta phi z)) =
        NpF.val (x / GalCat.completeness c theta phi z) := by
  have hfloor : (0:ℝ) < 1e-9 := by norm_num
  have hpos : 0 < GalCat.completeness c theta phi z := by
    unfold GalCat.completeness; linarith
  refine ⟨hpos, ne_of_gt hpos, fun x => ?_⟩
  simp [NpF.div, ne_of_gt hpos]

theorem completeness_floor_positive_witness :
    0 < GalCat.completeness ⟨[], fun _ _ _ => 0, 1⟩ 0 0 0 ∧
      GalCat.completeness ⟨[], fun _ _ _ => 0, 1⟩ 0 0 0 ≠ 0 ∧
      ∀ x : ℝ, (NpF.val x).div (NpF.val (GalCat.completeness ⟨[], fun _ _ _ => 0, 1⟩ 0 0 0)) =
        NpF.val (x / GalCat.completeness ⟨[], fun _ _ _ => 0, 1⟩ 0 0 0) :=
  completeness_floor_positive ⟨[], fun _ _ _ => 0, 1⟩ 0 0 0 (le_refl 0)

/-- C6: any completion-mode string other than `"add"` and `"mult"`
constructs the aggregator with both flags off, i.e. the exact state built
for the default interpolated mode (`"mix"`), so the confidence function and
all aggregation behaviour coincide with the interpolated mode. -/
theorem init_mode_fallback (s : String) (h1 : s ≠ "add") (h2 : s ≠ "mult") :
    GalCompleted.init s = GalCompleted.init "mix" ∧
      ∀ x : ℝ, (GalCompleted.init s).confidence x = (GalCompleted.init "mix").confidence x := by
  have hs : GalCompleted.init s = ⟨[], [], false, false⟩ := by
    unfold GalCompleted.init; rw [if_neg h1, if_neg h2]
  have hmix : GalCompleted.init "mix" = ⟨[], [], false, false⟩ := by
    unfold GalCompleted.init; simp
  rw [hs, hmix]
  exact ⟨rfl, fun _ => rfl⟩

theorem init_mode_fallback_witness :
    GalCompleted.init "hello" = GalCompleted.init "mix" ∧
      ∀ x : ℝ, (GalCompleted.init "hello").confidence x =
        (GalCompleted.init "mix").confidence x :=
  init_mode_fallback "hello" (by decide) (by decide)

/-- C7: in the interpolated (default) mode, `confidence` clips its argument
to `[2e-3, 1]` and returns `exp(0.05 * (1 - 1/clipped))`; it is monotone
non-decreasing on `(0, 1]`, equals 1 at completeness 1, and equals
`exp(0.05 * (1 - 500))` at the clip floor `2e-3`. -/
theorem confidence_interpolated (x y : ℝ) (hx : 0 < x) (hxy : x ≤ y) (hy : y ≤ 1) :
    (GalCompleted.init "mix").confidence x ≤ (GalCompleted.init "mix").confidence y ∧
      (GalCompleted.init "mix").confidence 1 = 1 ∧
      (GalCompleted.init "mix").confidence 2e-3 = Real.exp (0.05 * (1 - 500)) ∧
      ∀ t : ℝ, (GalCompleted.init "mix").confidence t =
        Real.exp (0.05 * (1 - 1 / min (max t 2e-3) 1)) := by
  have hmix : GalCompleted.init "mix" = ⟨[], [], false, false⟩ := by
    unfold GalCompleted.init; simp
  have hconf : ∀ t : ℝ, (GalCompleted.init "mix").confidence t =
      Real.exp (0.05 * (1 - 1 / min (max t 2e-3) 1)) := by
    intro t; rw [hmix]; exact confidence_default _ rfl rfl t
  refine ⟨?_, ?_, ?_, hconf⟩
  · rw [hconf x, hconf y]
    have hclipx : (0:ℝ) < min (max x 2e-3) 1 :=
      lt_min (lt_of_lt_of_le (by norm_num) (le_max_right _ _)) one_pos
    have hclipxy : min (max x 2e-3) 1 ≤ min (max y 2e-3) 1 :=
      min_le_min (max_le_max hxy (le_refl _)) (le_refl _)
    have hinv : 1 / min (max y 2e-3) 1 ≤ 1 / min (max x 2e-3) 1 :=
      one_div_le_one_div_of_le hclipx hclipxy
    have : 0.05 * (1 - 1 / min (max x 2e-3) 1) ≤ 0.05 * (1 - 1 / min (max y 2e-3) 1) := by
      nlinarith
    exact Real.exp_le_exp.mpr this
  · rw [hconf 1]
    have h1 : min (max (1:ℝ) 2e-3) 1 = 1 := by
      rw [max_eq_left (by norm_num : (2e-3:ℝ) ≤ 1), min_self]
    rw [h1]
    norm_num
  · rw [hconf 2e-3]
    have h1 : min (max (2e-3:ℝ) 2e-3) 1 = 2e-3 := by
      rw [max_self, min_eq_left (by norm_num : (2e-3:ℝ) ≤ 1)]
    rw [h1]
    norm_num

theorem confidence_interpolated_witness :
    ((GalCompleted.init "mix").confidence 1 ≤ (GalCompleted.init "mix").confidence 1 ∧
      (GalCompleted.init "mix").confidence 1 = 1 ∧
      (GalCompleted.init "mix").confidence 2e-3 = Real.exp (0.05 * (1 - 500)) ∧
      ∀ t : ℝ, (GalCompleted.init "mix").confidence t =
        Real.exp (0.05 * (1 - 1 / min (max t 2e-3) 1))) :=
  confidence_interpolated 1 1 one_pos (le_refl 1) (le_refl 1)

/-- C10: with zero catalogues, `get_inhom_contained` and `get_inhom` stack
an empty list of per-catalogue arrays and raise (modelled by `none`), while
`eval_hom` does not raise: it divides the zero vector by the zero total
catalogue weight, returning NaN for every query point instead of zeros. -/
theorem zero_catalogues (g : GalCompleted) (kp : List ℝ → Galaxy → List ℝ)
    (a2p : Nat → ℝ → ℝ → Nat) (zGrid : List ℝ) (nside : Nat) (theta phi z : List ℝ)
    (h1 : g.galcats = []) (h2 : theta.length = z.length) :
    g.get_inhom_contained kp a2p zGrid nside = none ∧ g.get_inhom a2p nside = none ∧
      g.eval_hom theta phi z true = some (List.replicate theta.length NpF.nan) := by
  obtain ⟨cats, ws, a, m⟩ := g
  simp only at h1
  subst h1
  refine ⟨rfl, rfl, ?_⟩
  unfold GalCompleted.eval_hom
  rw [if_neg (by simp [h2])]
  simp [evalHomAux, NpF.div, List.map_replicate]

theorem zero_catalogues_witness :
    aggEmpty.get_inhom_contained (fun _ _ => []) a2pC [] 0 = none ∧
      aggEmpty.get_inhom a2pC 0 = none ∧
      aggEmpty.eval_hom [0] [0] [0] true = some (List.replicate (List.length [(0:ℝ)]) NpF.nan) :=
  zero_catalogues aggEmpty (fun _ _ => []) a2pC [] 0 [0] [0] [0] rfl rfl

theorem hasCol_withCol_self (df : PDataFrame) (nside : Nat) (col : List Nat) :
    (df.withCol nside col).hasCol nside = true := by
  simp [PDataFrame.withCol, PDataFrame.hasCol, List.lookup]

theorem lookup_map_isSome (n : Nat) (f : List Nat → List Nat) :
    ∀ l : List (Nat × List Nat),
      (List.lookup n (l.map fun nc => (nc.1, f nc.2))).isSome = (List.lookup n l).isSome
  | [] => rfl
  | (k, v) :: rest => by
    simp only [List.map_cons, List.lookup]
    cases hk : n == k
    · exact lookup_map_isSome n f rest
    · rfl

theorem hasCol_filterMask (df : PDataFrame) (mask : List Bool) (nside : Nat) :
    (df.filterMask mask).hasCol nside = df.hasCol nside := by
  simp [PDataFrame.filterMask, PDataFrame.hasCol]
  exact lookup_map_isSome nside (fun col => keepWhere col mask) df.pixCols

/-- C3 counterexample: after a redshift/area selection has replaced the
aliasing selection by a copy, the pixel column computed at resolution 8
during aggregation (`inhomPixStep`) is written onto the selection copy, NOT
onto the underlying full table, and a subsequent `select_area` at the same
resolution computes it again — so the pixel index is computed twice for one
resolution, contradicting the claim. -/
theorem pixel_cache_not_shared :
    ((((GalCatSt.load [gal1]).select_area a2pC [3] 4).1.inhomPixStep a2pC 8).2.2 = true) ∧
    (((((GalCatSt.load [gal1]).select_area a2pC [3] 4).1.inhomPixStep a2pC 8).1.select_area
        a2pC [3] 8).2 = true) ∧
    ((((GalCatSt.load [gal1]).select_area a2pC [3] 4).1.inhomPixStep a2pC 8).1.data.hasCol 8
      = false) :=
  ⟨rfl, rfl, rfl⟩

/-- C3 amended: the pixel column computed by `select_area` is cached on the
underlying full table, so later `select_area` calls at the same resolution
and aggregation over the selection copied from that table perform no
recomputation; but a pixel column computed during aggregation on a
non-aliasing selection is stored on the selection object only and leaves the
full table's cache unchanged (hence it can be recomputed later, as the
counterexample shows). -/
theorem pixel_cache_semantics (a2p : Nat → ℝ → ℝ → Nat) (pixels pixels2 : List Nat)
    (nside : Nat) (st : GalCatSt) (h : st.selIsData = false) :
    ((st.select_area a2p pixels nside).1.data.hasCol nside = true) ∧
    (((st.select_area a2p pixels nside).1.select_area a2p pixels2 nside).2 = false) ∧
    (((st.select_area a2p pixels nside).1.inhomPixStep a2p nside).2.2 = false) ∧
    ((st.inhomPixStep a2p nside).1.data = st.data) := by
  have hdata : (st.select_area a2p pixels nside).1.data.hasCol nside = true := by
    by_cases h1 : st.data.hasCol nside = true
    · simp [GalCatSt.select_area, h1]
    · simp [GalCatSt.select_area, h1, hasCol_withCol_self]
  have hsel : (st.select_area a2p pixels nside).1.sel.hasCol nside = true := by
    by_cases h1 : st.data.hasCol nside = true
    · simp [GalCatSt.select_area, h1, hasCol_filterMask]
    · simp [GalCatSt.select_area, h1, hasCol_filterMask, hasCol_withCol_self]
  refine ⟨hdata, ?_, ?_, ?_⟩
  · generalize hst1 : (st.select_area a2p pixels nside).1 = st1 at hdata
    simp [GalCatSt.select_area, hdata]
  · generalize hst1 : (st.select_area a2p pixels nside).1 = st1 at hsel
    simp [GalCatSt.inhomPixStep, hsel]
  · by_cases h2 : st.sel.hasCol nside = true
    · simp [GalCatSt.inhomPixStep, h2]
    · simp [GalCatSt.inhomPixStep, h2, h]

theorem pixel_cache_semantics_witness :
    (((⟨⟨[gal1], []⟩, ⟨[gal1], []⟩, false⟩ : GalCatSt).select_area a2pC [3] 4).1.data.hasCol 4
        = true) ∧
    ((((⟨⟨[gal1], []⟩, ⟨[gal1], []⟩, false⟩ : GalCatSt).select_area a2pC [3] 4).1.select_area
        a2pC [5] 4).2 = false) ∧
    ((((⟨⟨[gal1], []⟩, ⟨[gal1], []⟩, false⟩ : GalCatSt).select_area a2pC [3] 4).1.inhomPixStep
        a2pC 4).2.2 = false) ∧
    (((⟨⟨[gal1], []⟩, ⟨[gal1], []⟩, false⟩ : GalCatSt).inhomPixStep a2pC 4).1.data =
      (⟨⟨[gal1], []⟩, ⟨[gal1], []⟩, false⟩ : GalCatSt).data) :=
  pixel_cache_semantics a2pC [3] [5] 4 ⟨⟨[gal1], []⟩, ⟨[gal1], []⟩, false⟩ rfl

theorem getD_range_map {α β : Type _} [Inhabited α] (f : α → β) :
    ∀ l : List α, (List.range l.length).map (fun i => f (l.getD i default)) = l.map f
  | [] => rfl
  | a :: t => by
    rw [List.length_cons, List.range_succ_eq_map]
    simp only [List.map_cons, List.map_map]
    have h0 : f ((a :: t).getD 0 default) = f a := rfl
    have hs : ((fun i => f ((a :: t).getD i default)) ∘ Nat.succ) =
        fun i => f (t.getD i default) := by
      funext i; rfl
    rw [h0, hs, getD_range_map f t]

theorem parmap_perm_eq {α β : Type _} [Inhabited α] (f : α → β) (X : List α)
    (arrival : List Nat) (hp : arrival.Perm (List.range X.length)) :
    parmap f X arrival = X.map f := by
  classical
  have hperm : (arrival.map fun i => (i, f (X.getD i default))).Perm
      ((List.range X.length).map fun i => (i, f (X.getD i default))) := hp.map _
  have hsortperm : (List.insertionSort (fun p q : Nat × β => p.1 ≤ q.1)
      (arrival.map fun i => (i, f (X.getD i default)))).Perm
      ((List.range X.length).map fun i => (i, f (X.getD i default))) :=
    (List.perm_insertionSort _ _).trans hperm
  haveI : IsTotal (Nat × β) (fun p q => p.1 ≤ q.1) := ⟨fun a b => Nat.le_total a.1 b.1⟩
  haveI : IsTrans (Nat × β) (fun p q => p.1 ≤ q.1) := ⟨fun _ _ _ hab hbc => le_trans hab hbc⟩
  have hsorted : (List.insertionSort (fun p q : Nat × β => p.1 ≤ q.1)
      (arrival.map fun i => (i, f (X.getD i default)))).Sorted (fun p q => p.1 ≤ q.1) :=
    List.sorted_insertionSort _ _
  have hkeysnodup : ((List.insertionSort (fun p q : Nat × β => p.1 ≤ q.1)
      (arrival.map fun i => (i, f (X.getD i default)))).map Prod.fst).Nodup := by
    have h1 := hsortperm.map Prod.fst
    have h2 : (((List.range X.length).map fun i => (i, f (X.getD i default))).map
        Prod.fst) = List.range X.length := by
      rw [List.map_map]
      have hcomp : (Prod.fst ∘ fun i : Nat => (i, f (X.getD i default))) = id := by
        funext i; rfl
      rw [hcomp, List.map_id]
    rw [h2] at h1
    exact h1.nodup_iff.mpr (List.nodup_range _)
  have hne : (List.insertionSort (fun p q : Nat × β => p.1 ≤ q.1)
      (arrival.map fun i => (i, f (X.getD i default)))).Pairwise
      (fun p q => p.1 ≠ q.1) := by
    rw [List.Nodup, List.pairwise_map] at hkeysnodup
    exact hkeysnodup
  have hlt : (List.insertionSort (fun p q : Nat × β => p.1 ≤ q.1)
      (arrival.map fun i => (i, f (X.getD i default)))).Sorted
      (fun p q : Nat × β => p.1 < q.1) :=
    List.Pairwise.imp₂ (fun _ _ h1 h2 => lt_of_le_of_ne h1 h2) hsorted hne
  have hcansorted : (((List.range X.length).map fun i =>
      (i, f (X.getD i default)))).Sorted (fun p q : Nat × β => p.1 < q.1) := by
    rw [List.Sorted, List.pairwise_map]
    exact List.pairwise_lt_range _
  haveI : IsAntisymm (Nat × β) (fun p q => p.1 < q.1) :=
    ⟨fun _ _ h1 h2 => absurd h2 (lt_asymm h1)⟩
  have heq := List.eq_of_perm_of_sorted hsortperm hlt hcansorted
  show (List.insertionSort (fun p q : Nat × β => p.1 ≤ q.1)
      (arrival.map fun i => (i, f (X.getD i default)))).map Prod.snd = X.map f
  rw [heq, List.map_map]
  exact getD_range_map f X

theorem flatten_take_segments {α : Type _} (df : List α) (n : Nat) :
    ∀ k : Nat, ((List.range k).map fun b => (df.drop (n * b)).take n).flatten
      ++ df.drop (n * k) = df
  | 0 => by simp
  | k + 1 => by
    rw [List.range_succ, List.map_append, List.flatten_append]
    simp only [List.map_cons, List.map_nil, List.flatten_cons, List.flatten_nil,
      List.append_nil]
    rw [List.append_assoc, Nat.mul_succ, List.drop_take_append_drop]
    exact flatten_take_segments df n k

theorem flatten_batches (conv : Galaxy → Res5) (df : List Galaxy) (k : Nat) :
    ((List.range (k + 1)).map fun b => convolve_batch conv df (k + 1) b).flatten =
      df.map conv := by
  rw [List.range_succ, List.map_append, List.flatten_append]
  have hlast : convolve_batch conv df (k + 1) k = (df.drop (df.length / (k + 1) * k)).map conv := by
    simp only [convolve_batch]
    rw [if_pos (by omega : k = k + 1 - 1), List.take_length]
  have hseg : ∀ b ∈ List.range k, convolve_batch conv df (k + 1) b =
      ((df.drop (df.length / (k + 1) * b)).take (df.length / (k + 1))).map conv := by
    intro b hb
    rw [List.mem_range] at hb
    simp only [convolve_batch]
    rw [if_neg (by omega)]
    congr 1
    rw [List.take_drop, Nat.mul_succ]
  rw [List.map_congr_left hseg]
  simp only [List.map_cons, List.map_nil, List.flatten_cons, List.flatten_nil,
    List.append_nil]
  rw [hlast]
  have hpull : ((List.range k).map fun b =>
        ((df.drop (df.length / (k + 1) * b)).take (df.length / (k + 1))).map conv).flatten =
      (((List.range k).map fun b =>
        (df.drop (df.length / (k + 1) * b)).take (df.length / (k + 1))).flatten).map conv := by
    rw [List.map_flatten, List.map_map]
    rfl
  rw [hpull, ← List.map_append]
  rw [flatten_take_segments df (df.length / (k + 1)) k]

theorem batchedRes_eq (conv : Galaxy → Res5) (df : List Galaxy) (nB : Nat)
    (arrival : List Nat) (h1 : 1 ≤ nB) (hp : arrival.Perm (List.range nB)) :
    batchedRes conv df nB arrival = df.map conv := by
  obtain ⟨k, rfl⟩ : ∃ k, nB = k + 1 := ⟨nB - 1, (Nat.succ_pred_eq_of_pos h1).symm⟩
  unfold batchedRes
  rw [parmap_perm_eq _ _ arrival (by rwa [List.length_range])]
  exact flatten_batches conv df k

theorem keepWhere_cons (x : α) (xs : List α) (b : Bool) (bs : List Bool) :
    keepWhere (x :: xs) (b :: bs) = if b then x :: keepWhere xs bs else keepWhere xs bs := by
  cases b <;> simp [keepWhere]

theorem keepWhere_filter_aux : ∀ (df : List Galaxy) (res : List Res5),
    keepWhere (List.zipWith setQuantiles df res) (res.map fun x => !volPriorMask x) =
      (List.zipWith setQuantiles df res).filter fun gal => !rowUnfeasible gal
  | [], res => by simp [keepWhere]
  | _ :: _, [] => by simp [keepWhere]
  | g :: df, r :: res => by
    have hmask : volPriorMask r = rowUnfeasible (setQuantiles g r) := by
      simp [volPriorMask, rowUnfeasible, setQuantiles]
    simp only [List.zipWith_cons_cons, List.map_cons, keepWhere_cons, List.filter_cons, hmask]
    cases h : rowUnfeasible (setQuantiles g r) <;>
      simp [h, keepWhere_filter_aux df res]

theorem keepWhere_filter (df : List Galaxy) (res : List Res5) :
    keepWhere (List.zipWith setQuantiles df res) ((res.map volPriorMask).map fun b => !b) =
      (List.zipWith setQuantiles df res).filter fun gal => !rowUnfeasible gal := by
  rw [List.map_map]
  exact keepWhere_filter_aux df res

theorem zipWith_self_map {α β γ : Type _} (f : α → β → γ) (g : α → β) :
    ∀ l : List α, List.zipWith f l (l.map g) = l.map fun a => f a (g a)
  | [] => rfl
  | a :: t => by simp [zipWith_self_map f g t]

/-- C4: with at least one batch and any completion order of the parallel
workers (any permutation of the batch indices), the reassembled corrected
quantiles equal the per-row convolution of the whole table in the original
row order; in particular running the volume-prior correction with `nB`
batches gives exactly the same result as with one batch. -/
theorem batch_invariance (conv : Galaxy → Res5) (df : List Galaxy) (nB : Nat)
    (arrival : List Nat) (h1 : 1 ≤ nB) (hp : arrival.Perm (List.range nB)) :
    batchedRes conv df nB arrival = df.map conv ∧
      includeVolPriorWith conv df nB arrival = includeVolPriorWith conv df 1 [0] := by
  have hres := batchedRes_eq conv df nB arrival h1 hp
  have hone : batchedRes conv df 1 [0] = df.map conv :=
    batchedRes_eq conv df 1 [0] (le_refl 1) (by decide)
  refine ⟨hres, ?_⟩
  unfold includeVolPriorWith
  rw [hres, hone]

theorem batch_invariance_witness :
    batchedRes convC [gal1, gal2] 2 [1, 0] = [gal1, gal2].map convC ∧
      includeVolPriorWith convC [gal1, gal2] 2 [1, 0] =
        includeVolPriorWith convC [gal1, gal2] 1 [0] :=
  batch_invariance convC [gal1, gal2] 2 [1, 0] (by norm_num) (by decide)

/-- C9: `include_vol_prior` overwrites the five quantile columns of *every*
row of the caller's dataframe (its first component: same length as the
input, each row's quantiles replaced by the convolution result, the
non-quantile columns kept) before filtering, and returns a new frame holding
exactly the rows whose corrected quantiles are strictly increasing with a
non-negative lower bound — so after the call the caller's frame still
contains all rows, including the infeasible ones, with corrected values. -/
theorem include_vol_prior_mutation (conv : Galaxy → Res5) (df : List Galaxy)
    (arrival : List Nat)
    (hp : arrival.Perm (List.range (max (df.length / 10000) 1))) :
    (include_vol_prior conv df arrival).1 =
        df.map (fun gal => setQuantiles gal (conv gal)) ∧
      (include_vol_prior conv df arrival).1.length = df.length ∧
      (include_vol_prior conv df arrival).2 =
        (include_vol_prior conv df arrival).1.filter fun g => !rowUnfeasible g := by
  have hres : batchedRes conv df (max (df.length / 10000) 1) arrival = df.map conv :=
    batchedRes_eq conv df _ arrival (le_max_right _ _) hp
  have hstore : (include_vol_prior conv df arrival).1 =
      df.map fun gal => setQuantiles gal (conv gal) := by
    unfold include_vol_prior includeVolPriorWith
    simp only [hres]
    exact zipWith_self_map _ _ df
  refine ⟨hstore, by rw [hstore, List.length_map], ?_⟩
  unfold include_vol_prior includeVolPriorWith
  exact keepWhere_filter df _

theorem include_vol_prior_mutation_witness :
    (include_vol_prior convC [gal1] [0]).1 =
        [gal1].map (fun gal => setQuantiles gal (convC gal)) ∧
      (include_vol_prior convC [gal1] [0]).1.length = List.length [gal1] ∧
      (include_vol_prior convC [gal1] [0]).2 =
        (include_vol_prior convC [gal1] [0]).1.filter fun g => !rowUnfeasible g :=
  include_vol_prior_mutation convC [gal1] [0] (by decide)

/-- C5: every row of the frame returned by `include_vol_prior` satisfies
`0 ≤ z_lowerbound ≤ z_lower ≤ z ≤ z_upper ≤ z_upperbound`, and the returned
frame is exactly the corrected frame restricted to the rows whose corrected
quantiles are strictly increasing with a non-negative lower bound (every
other row is removed). -/
theorem vol_prior_filter_invariant (conv : Galaxy → Res5) (df : List Galaxy)
    (arrival : List Nat) (gal : Galaxy)
    (hmem : gal ∈ (include_vol_prior conv df arrival).2) :
    (0 ≤ gal.z_lowerbound ∧ gal.z_lowerbound ≤ gal.z_lower ∧ gal.z_lower ≤ gal.z ∧
      gal.z ≤ gal.z_upper ∧ gal.z_upper ≤ gal.z_upperbound) ∧
    (include_vol_prior conv df arrival).2 =
      (include_vol_prior conv df arrival).1.filter fun g => !rowUnfeasible g := by
  have hfilter : (include_vol_prior conv df arrival).2 =
      (include_vol_prior conv df arrival).1.filter fun g => !rowUnfeasible g := by
    unfold include_vol_prior includeVolPriorWith
    exact keepWhere_filter df _
  refine ⟨?_, hfilter⟩
  rw [hfilter] at hmem
  have hfeas := List.of_mem_filter hmem
  simp only [Bool.not_eq_true', rowUnfeasible, decide_eq_false_iff_not] at hfeas
  push_neg at hfeas
  obtain ⟨h1, h2, h3, h4, h5⟩ := hfeas
  exact ⟨h5, le_of_lt h1, le_of_lt h2, le_of_lt h3, le_of_lt h4⟩

theorem vol_prior_filter_invariant_witness :
    ((0 ≤ (setQuantiles gal1 (convC gal1)).z_lowerbound ∧
      (setQuantiles gal1 (convC gal1)).z_lowerbound ≤ (setQuantiles gal1 (convC gal1)).z_lower ∧
      (setQuantiles gal1 (convC gal1)).z_lower ≤ (setQuantiles gal1 (convC gal1)).z ∧
      (setQuantiles gal1 (convC gal1)).z ≤ (setQuantiles gal1 (convC gal1)).z_upper ∧
      (setQuantiles gal1 (convC gal1)).z_upper ≤ (setQuantiles gal1 (convC gal1)).z_upperbound) ∧
    (include_vol_prior convC [gal1] [0]).2 =
      (include_vol_prior convC [gal1] [0]).1.filter fun g => !rowUnfeasible g) :=
  vol_prior_filter_invariant convC [gal1] [0] (setQuantiles gal1 (convC gal1)) (by
    unfold include_vol_prior includeVolPriorWith
    rw [keepWhere_filter]
    refine List.mem_filter.mpr ⟨List.mem_cons_self _ _, ?_⟩
    simp only [Bool.not_eq_true', rowUnfeasible, decide_eq_false_iff_not]
    push_neg
    norm_num [setQuantiles, convC, gal1])

set_option maxHeartbeats 1600000 in
/-- C2 counterexample: additive mode, two catalogues each holding one galaxy
with weight 1 and density goal 1.  Scenarios A and B are identical except
for the completeness value at the first galaxy's position (1 in A, 1/2 in
B).  The first galaxy's weight returned by `get_inhom` is 1/2 in A but 1/3
in B, so in additive mode the per-galaxy inhomogeneous weight DOES depend on
the completeness value at that galaxy's position (through the catalogue
weight `w * mean(completeness)` and the total normalization), refuting the
claim as stated. -/
theorem additive_weight_depends_on_completeness :
    aggC2A.get_inhom a2pC 64 =
        some ([3, 3], [1, 2], [NpF.val (1/2), NpF.val (1/2)]) ∧
      aggC2B.get_inhom a2pC 64 =
        some ([3, 3], [1, 2], [NpF.val (1/3), NpF.val (2/3)]) ∧
      NpF.val ((1:ℝ)/2) ≠ NpF.val ((1:ℝ)/3) := by
  have hC1 : ((1:ℝ) - 1e-9) + 1e-9 = 1 := by norm_num
  have hC2 : ((1:ℝ)/2 - 1e-9) + 1e-9 = 1/2 := by norm_num
  refine ⟨?_, ?_, by simp only [ne_eq, NpF.val.injEq]; norm_num⟩
  · simp only [aggC2A, catC2A1, catC2s, gal1, gal2, GalCompleted.get_inhom, inhomAux,
      List.zip_cons_cons, List.zip_nil_right, selCompleteness, GalCat.completeness,
      inhomCatweight, npMean, GalCompleted.confidence, a2pC, List.map_cons, List.map_nil,
      List.sum_cons, List.sum_nil, List.length_cons, List.length_nil, hC1,
      List.flatten_cons, List.flatten_nil, List.append_nil, List.nil_append]
    norm_num [NpF.div, NpF.mul, NpF.add]
  · simp only [aggC2B, catC2B1, catC2s, gal1, gal2, GalCompleted.get_inhom, inhomAux,
      List.zip_cons_cons, List.zip_nil_right, selCompleteness, GalCat.completeness,
      inhomCatweight, npMean, GalCompleted.confidence, a2pC, List.map_cons, List.map_nil,
      List.sum_cons, List.sum_nil, List.length_cons, List.length_nil, hC1, hC2,
      List.flatten_cons, List.flatten_nil, List.append_nil, List.nil_append]
    norm_num [NpF.div, NpF.mul, NpF.add]

theorem confidence_additive (g : GalCompleted) (h1 : g.additive = true)
    (h2 : g.multiplicative = false) (t : ℝ) : g.confidence t = t := by
  simp [GalCompleted.confidence, h1, h2]

theorem inhomAux_additive (g : GalCompleted) (a2p : Nat → ℝ → ℝ → Nat) (nside : Nat)
    (h1 : g.additive = true) (h2 : g.multiplicative = false)
    (h3 : g.galcats.length ≠ 1) :
    ∀ pairs : List (GalCatView × ℝ),
      (∀ cw ∈ pairs, ∀ gal ∈ cw.1.sel,
        GalCat.completeness cw.1 gal.theta gal.phi gal.z ≠ 0) →
      ∀ (ps : List (List Nat)) (zs : List (List ℝ)) (ws : List (List NpF)) (cwt : NpF),
        inhomAux g a2p nside pairs ps zs ws cwt =
          (ps ++ pairs.map fun cw => cw.1.sel.map fun gal => a2p nside gal.theta gal.phi,
           zs ++ pairs.map fun cw => cw.1.sel.map Galaxy.z,
           ws ++ pairs.map (fun cw => cw.1.sel.map fun gal =>
             ((NpF.val gal.w).mul (inhomCatweight cw.2 (selCompleteness cw.1))).div
               (NpF.val cw.1.goal)),
           pairs.foldl (fun acc cw =>
             acc.add (inhomCatweight cw.2 (selCompleteness cw.1))) cwt) := by
  intro pairs
  induction pairs with
  | nil => intro _ ps zs ws cwt; simp [inhomAux]
  | cons cw rest ih =>
    intro hcc ps zs ws cwt
    obtain ⟨c, w⟩ := cw
    simp only [inhomAux]
    rw [if_neg fun hand => h3 hand.2]
    have hws : ((c.sel.map Galaxy.w).zip (selCompleteness c)).map (fun xc =>
        ((((NpF.val xc.1).div (NpF.val xc.2)).mul (NpF.val (g.confidence xc.2))).mul
          (inhomCatweight w (selCompleteness c))).div (NpF.val c.goal)) =
        c.sel.map fun gal =>
          ((NpF.val gal.w).mul (inhomCatweight w (selCompleteness c))).div
            (NpF.val c.goal) := by
      rw [selCompleteness, List.zip_map', List.map_map]
      apply List.map_congr_left
      intro gal hgal
      have hcc0 : GalCat.completeness c gal.theta gal.phi gal.z ≠ 0 :=
        hcc (c, w) (List.mem_cons_self _ _) gal hgal
      simp only [Function.comp_apply]
      rw [confidence_additive g h1 h2]
      rw [NpF.val_div_val _ _ hcc0, NpF.val_mul_val, div_mul_cancel₀ gal.w hcc0]
    rw [hws]
    rw [ih (fun cw2 hcw gal hgal => hcc cw2 (List.mem_cons_of_mem _ hcw) gal hgal)]
    simp only [List.map_cons, List.foldl_cons, List.append_assoc, List.singleton_append]

/-- C2 amended: in additive completion mode (with several catalogues, so the
single-catalogue shortcut does not apply) the division by completeness is
cancelled exactly by the confidence factor, so each galaxy's returned weight
is `w_gal * catweight / goal` divided by the total catalogue weight — it
depends on completeness only through the catalogue-level factors
`catweight = w * mean(completeness)` and their accumulated total, not
through the per-galaxy `1/completeness` division (as-stated independence
fails, see the counterexample); and each catalogue's unnormalized
homogeneous contribution inside `eval_hom` equals
`catweight * (1 - completeness)` at every query point. -/
theorem additive_cancellation (g : GalCompleted) (a2p : Nat → ℝ → ℝ → Nat) (nside : Nat)
    (h1 : g.additive = true) (h2 : g.multiplicative = false)
    (h3 : g.galcats.length ≠ 1) (h4 : g.galcats ≠ [])
    (hcc : ∀ c ∈ g.galcats, ∀ gal ∈ c.sel,
      GalCat.completeness c gal.theta gal.phi gal.z ≠ 0) :
    g.get_inhom a2p nside =
        some (allPixels g a2p nside, allRedshifts g, additiveInhomWeightsSpec g) ∧
      ∀ (c : GalCatView) (w : ℝ) (theta phi z : List ℝ),
        homContribution g c w theta phi z = additiveHomContributionSpec c w theta phi z := by
  constructor
  · have haux := inhomAux_additive g a2p nside h1 h2 h3 (g.galcats.zip g.catweights)
      (fun cw hcw gal hgal => hcc cw.1 (List.of_mem_zip hcw).1 gal hgal)
      [] [] [] (NpF.val 0)
    obtain ⟨cats, cws, ad, mu⟩ := g
    simp only at h4 haux ⊢
    cases cats with
    | nil => exact absurd rfl h4
    | cons c0 rest =>
      simp only [GalCompleted.get_inhom, haux, List.nil_append]
      simp only [additiveInhomWeightsSpec, allPixels, allRedshifts]
      refine congrArg some (Prod.ext rfl (Prod.ext rfl ?_))
      rw [List.map_flatten, List.map_map]
      refine congrArg List.flatten (List.map_congr_left fun cw hcw => ?_)
      simp only [Function.comp_apply, List.map_map]
      rfl
  · intro c w theta phi z
    simp [homContribution, additiveHomContributionSpec, confidence_additive g h1 h2]

theorem additive_cancellation_witness :
    (aggC2A.get_inhom a2pC 64 =
        some (allPixels aggC2A a2pC 64, allRedshifts aggC2A,
          additiveInhomWeightsSpec aggC2A) ∧
      ∀ (c : GalCatView) (w : ℝ) (theta phi z : List ℝ),
        homContribution aggC2A c w theta phi z =
          additiveHomContributionSpec c w theta phi z) :=
  additive_cancellation aggC2A a2pC 64 rfl rfl (by norm_num [aggC2A])
    (by simp [aggC2A]) (by
      intro c hc gal hgal
      simp only [aggC2A, List.mem_cons, List.not_mem_nil, or_false] at hc
      rcases hc with hc | hc <;> subst hc <;>
        norm_num [catC2A1, catC2s, GalCat.completeness])

/-- C1 (evaluation at the failing input): interpolated mode, catalogue A
(weight 0.7) fully complete with one selected galaxy, catalogue B
(weight 0.3) with an empty selection.  `np.mean` of B's empty completeness
array is NaN, so B's `catweight = 0.3 * NaN` is NaN, the accumulated
`catweightTotal` is NaN, and the final division makes EVERY returned weight
NaN — instead of returning catalogue A's weights with the normalization
unaffected as the claim states. -/
theorem empty_catalogue_poisons_normalization :
    aggC1.get_inhom_contained kpC1 a2pC [0] 64 = some ([3], [[NpF.nan]]) := by
  simp only [aggC1, catC1A, catC1B, gal1, GalCompleted.get_inhom_contained,
    inhomContainedAux, List.zip_cons_cons, List.zip_nil_right, kpC1, a2pC,
    selGridCompleteness, GalCat.completeness, inhomCatweight, npMean,
    List.map_cons, List.map_nil, List.flatten_cons, List.flatten_nil,
    List.append_nil, List.nil_append, List.sum_cons, List.sum_nil,
    List.length_cons, List.length_nil, NpF.mul, NpF.add, NpF.mul_nan,
    NpF.add_nan, NpF.div_nan]
  norm_num [NpF.mul_nan, NpF.add_nan, NpF.div_nan]
